import Mathlib

/-!
Verification of the permission-gated WebDAV filesystem adapter.

The development shallowly embeds the two Go source files of the repository:

* `Dir` (the permission-gated adapter): `Dir.resolve`, the four permission
  checks `hasRead`/`hasWrite`/`hasDelete`/`hasList`, and the five operations
  `Mkdir`, `OpenFile`, `RemoveAll`, `Rename`, `Stat`.
* `UserDir` (src/app/fs.go, the per-user adapter without permission checks).

Paths are Go strings; the Go standard-library helpers the code calls
(`path.Clean`, `filepath.Join`, `filepath.FromSlash`) are embedded for the
Linux platform, where `filepath.Separator = '/'` and `filepath.FromSlash` is
the identity.  `path.Clean` is modelled by its segment-stack semantics:
split on `'/'`, fold the segments over a stack (dropping `""` and `"."`,
letting `".."` pop, with the documented special cases at a rooted or
unrooted start), and re-render.  Each operation is embedded as a pure
function returning an `Outcome`: the error it returns before touching the
filesystem, a `nilPanic` marker for a nil-pointer dereference, or the
argument list it would pass to the underlying filesystem call.
-/

/-- A path segment: the characters between two slashes. -/
abbrev Seg := List Char

/-- The segment `".."`. -/
def dotdot : Seg := ['.', '.']

/-- Split a character list on `'/'`.  Always returns at least one segment;
`segsOf "" = [""]`, mirroring Go `strings.Split(p, "/")`. -/
def segsOf : List Char → List Seg
  | [] => [[]]
  | c :: cs =>
    if c = '/' then [] :: segsOf cs
    else (c :: (segsOf cs).headD []) :: (segsOf cs).tail

/-- Join segments with `'/'` (Go `strings.Join(l, "/")`). -/
def joinSegs : List Seg → List Char
  | [] => []
  | [s] => s
  | s :: ss => s ++ '/' :: joinSegs ss

/-- One step of Go `path.Clean`'s element loop: push segment `s` onto the
stack `st` (top element first).  `""` and `"."` are dropped; `".."` pops the
top element when it is poppable, is dropped at the start of a rooted path,
and accumulates at the start of an unrooted path. -/
def cleanPush (rooted : Bool) (st : List Seg) (s : Seg) : List Seg :=
  if s = [] ∨ s = ['.'] then st
  else if s = dotdot then
    match st with
    | [] => if rooted then [] else [dotdot]
    | t :: rest => if t = dotdot then dotdot :: t :: rest else rest
  else s :: st

/-- Whether a path is rooted (begins with `'/'`). -/
def rootedOf : List Char → Bool
  | [] => false
  | c :: _ => c == '/'

/-- The stack (top first) left by running `cleanPush` over all segments. -/
def rawStack (p : List Char) : List Seg :=
  (segsOf p).foldl (cleanPush (rootedOf p)) []

/-- Render a cleaned stack back into a path. -/
def renderClean (rooted : Bool) (st : List Seg) : List Char :=
  let body := joinSegs st.reverse
  if rooted then '/' :: body
  else if body = [] then ['.'] else body

/-- Go `path.Clean` on the character level. -/
def pathCleanChars (p : List Char) : List Char :=
  match p with
  | [] => ['.']
  | _ :: _ => renderClean (rootedOf p) (rawStack p)

/-- Go `path.Clean` (equal to `filepath.Clean` on Linux). -/
def pathClean (p : String) : String :=
  String.mk (pathCleanChars p.data)

/-- Go `filepath.Join` on Linux: skip leading empty elements, join the rest
with `'/'` and clean; all elements empty gives `""`. -/
def filepathJoin (es : List String) : String :=
  match es.dropWhile (fun e => e == "") with
  | [] => ""
  | e :: rest => pathClean (String.mk (joinSegs ((e :: rest).map String.data)))

/-- Go `filepath.Separator` on Linux. -/
def filepathSeparator : Char := '/'

/-- Go `filepath.FromSlash`: the identity on Linux. -/
def filepathFromSlash (p : String) : String := p

/-- The NUL character, `"\x00"` in the Go source. -/
def nulChar : Char := Char.ofNat 0

/-- The cleaned canonical form of a path, as (rootedness, in-order segment
list): the data `path.Clean` renders from. -/
def cleanParts (p : String) : Bool × List Seg :=
  (rootedOf p.data, (rawStack p.data).reverse)

/-- `isUnder base p`: `p` is lexically contained within `base` — after
cleaning, both have the same rootedness and `base`'s segments are a prefix
of `p`'s. -/
def isUnder (base p : String) : Bool :=
  (cleanParts base).1 == (cleanParts p).1
    && (cleanParts base).2.isPrefixOf (cleanParts p).2

/-! ## The data model (Config, AuthInfo) -/

/-- Per-user configuration entry (`*UserInfo` in the Go config): an optional
subdirectory and four optional permission flags.  The Go map
`Config.Users` stores pointers, so a lookup of an absent username yields
`nil`, modelled as `Option.none` at the lookup site. -/
structure UserInfo where
  subdir : Option String
  read : Option Bool
  write : Option Bool
  delete : Option Bool
  list : Option Bool
deriving DecidableEq, Repr

/-- Per-operation audit-log toggles (`Config.Log`). -/
structure LogOptions where
  create : Bool
  read : Bool
  delete : Bool
  update : Bool
deriving DecidableEq, Repr

/-- The server configuration: root directory, user table, log toggles.
The user table is an association list standing for the Go map. -/
structure Config where
  dir : String
  users : List (String × UserInfo)
  log : LogOptions
deriving DecidableEq, Repr

/-- Authentication information attached to a request context.  A request
context carries either no auth info (`none`, Go `nil`) or this record. -/
structure AuthInfo where
  authenticated : Bool
  username : String
deriving DecidableEq, Repr

/-- The permission-gated adapter. -/
structure Dir where
  config : Config
deriving DecidableEq, Repr

/-- The outcome of an adapter operation, up to the underlying filesystem
call: an error returned before touching the filesystem, a nil-pointer
dereference panic, or the path argument list passed to the underlying call. -/
inductive Outcome where
  | errNotExist
  | errPermission
  | errInvalid
  | nilPanic
  | fsCall (args : List String)
deriving DecidableEq, Repr

/-! ## Dir.resolve and the permission checks -/

/-- `Dir.resolve` (lines 34–55): reject separators foreign to the platform
and NUL bytes, then join the rooted-cleaned virtual path onto the root
directory, or onto root/subdir for an authenticated user whose policy
declares a subdirectory. -/
def Dir.resolve (d : Dir) (ctx : Option AuthInfo) (name : String) : String :=
  if (!(filepathSeparator == '/') && name.data.contains filepathSeparator)
      || name.data.contains nulChar then ""
  else
    let dir := if d.config.dir = "" then "." else d.config.dir
    let cleaned := filepathFromSlash (pathClean ("/" ++ name))
    match ctx with
    | some a =>
      if a.authenticated then
        match d.config.users.lookup a.username with
        | some u =>
          match u.subdir with
          | some sub => filepathJoin [dir, sub, cleaned]
          | none => filepathJoin [dir, cleaned]
        | none => filepathJoin [dir, cleaned]
      else filepathJoin [dir, cleaned]
    | none => filepathJoin [dir, cleaned]

/-- `hasRead` (lines 199–206).  For an authenticated user the Go code reads
`userInfo.Read` through the pointer returned by the map lookup; when the
username has no entry that pointer is `nil` and the field access panics,
modelled as `none`. -/
def hasRead (ctx : Option AuthInfo) (d : Dir) : Option Bool :=
  match ctx with
  | some a =>
    if a.authenticated then
      match d.config.users.lookup a.username with
      | some u =>
        match u.read with
        | none => some true
        | some b => some b
      | none => none
    else some d.config.users.isEmpty
  | none => some d.config.users.isEmpty

/-- `hasWrite` (lines 208–215); same shape as `hasRead`. -/
def hasWrite (ctx : Option AuthInfo) (d : Dir) : Option Bool :=
  match ctx with
  | some a =>
    if a.authenticated then
      match d.config.users.lookup a.username with
      | some u =>
        match u.write with
        | none => some true
        | some b => some b
      | none => none
    else some d.config.users.isEmpty
  | none => some d.config.users.isEmpty

/-- `hasDelete` (lines 217–224); same shape as `hasRead`. -/
def hasDelete (ctx : Option AuthInfo) (d : Dir) : Option Bool :=
  match ctx with
  | some a =>
    if a.authenticated then
      match d.config.users.lookup a.username with
      | some u =>
        match u.delete with
        | none => some true
        | some b => some b
      | none => none
    else some d.config.users.isEmpty
  | none => some d.config.users.isEmpty

/-- `hasList` (lines 226–233); same shape as `hasRead`. -/
def hasList (ctx : Option AuthInfo) (d : Dir) : Option Bool :=
  match ctx with
  | some a =>
    if a.authenticated then
      match d.config.users.lookup a.username with
      | some u =>
        match u.list with
        | none => some true
        | some b => some b
      | none => none
    else some d.config.users.isEmpty
  | none => some d.config.users.isEmpty

/-! ## The five Dir operations -/

/-- `Dir.Mkdir` (lines 58–80): resolve, require write, call `os.Mkdir`. -/
def Dir.Mkdir (d : Dir) (ctx : Option AuthInfo) (name : String) : Outcome :=
  let r := d.resolve ctx name
  if r = "" then .errNotExist
  else
    match hasWrite ctx d with
    | none => .nilPanic
    | some false => .errPermission
    | some true => .fsCall [r]

/-- `Dir.OpenFile` (lines 83–121): resolve; if the low two flag bits show
write intent, require write; if they show read-only or read-write intent,
require list when the target stats as a directory, and require read; then
call `os.OpenFile`.  `statIsDir` stands for `stat != nil && stat.IsDir()`
at the resolved path; `flag % 4` is Go `flag & 0x3`. -/
def Dir.OpenFile (d : Dir) (ctx : Option AuthInfo) (name : String)
    (flag : Nat) (statIsDir : Bool) : Outcome :=
  let r := d.resolve ctx name
  if r = "" then .errNotExist
  else
    let readGate : Outcome :=
      if flag % 4 = 0 ∨ flag % 4 = 2 then
        if statIsDir then
          match hasList ctx d with
          | none => .nilPanic
          | some false => .errPermission
          | some true =>
            match hasRead ctx d with
            | none => .nilPanic
            | some false => .errPermission
            | some true => .fsCall [r]
        else
          match hasRead ctx d with
          | none => .nilPanic
          | some false => .errPermission
          | some true => .fsCall [r]
      else .fsCall [r]
    if flag % 4 ≠ 0 then
      match hasWrite ctx d with
      | none => .nilPanic
      | some false => .errPermission
      | some true => readGate
    else readGate

/-- `Dir.RemoveAll` (lines 124–150): resolve, refuse the root, require
delete, call `os.RemoveAll`. -/
def Dir.RemoveAll (d : Dir) (ctx : Option AuthInfo) (name : String) : Outcome :=
  let r := d.resolve ctx name
  if r = "" then .errNotExist
  else if r = pathClean d.config.dir then .errInvalid
  else
    match hasDelete ctx d with
    | none => .nilPanic
    | some false => .errPermission
    | some true => .fsCall [r]

/-- `Dir.Rename` (lines 153–184): resolve both names, require write, refuse
the root as source or target, call `os.Rename`.  Note the write check runs
before the root check. -/
def Dir.Rename (d : Dir) (ctx : Option AuthInfo) (oldName newName : String) : Outcome :=
  let o := d.resolve ctx oldName
  if o = "" then .errNotExist
  else
    let n := d.resolve ctx newName
    if n = "" then .errNotExist
    else
      match hasWrite ctx d with
      | none => .nilPanic
      | some false => .errPermission
      | some true =>
        if pathClean d.config.dir = o ∨ pathClean d.config.dir = n then .errInvalid
        else .fsCall [o, n]

/-- `Dir.Stat` (lines 187–197): resolve, require list, call `os.Stat`. -/
def Dir.Stat (d : Dir) (ctx : Option AuthInfo) (name : String) : Outcome :=
  let r := d.resolve ctx name
  if r = "" then .errNotExist
  else
    match hasList ctx d with
    | none => .nilPanic
    | some false => .errPermission
    | some true => .fsCall [r]

/-! ## The UserDir adapter (src/app/fs.go) -/

/-- The per-user adapter without permission checks. -/
structure UserDir where
  baseDir : String
deriving DecidableEq, Repr

/-- `UserDir.resolve` (src/app/fs.go lines 24–41): like `Dir.resolve`, but
an authenticated context is rooted at `BaseDir` joined with the raw
username; there is no user table and no subdirectory policy. -/
def UserDir.resolve (d : UserDir) (ctx : Option AuthInfo) (name : String) : String :=
  if (!(filepathSeparator == '/') && name.data.contains filepathSeparator)
      || name.data.contains nulChar then ""
  else
    let dir := if d.baseDir = "" then "." else d.baseDir
    match ctx with
    | some a =>
      if a.authenticated then
        filepathJoin [dir, a.username, filepathFromSlash (pathClean ("/" ++ name))]
      else filepathJoin [dir, filepathFromSlash (pathClean ("/" ++ name))]
    | none => filepathJoin [dir, filepathFromSlash (pathClean ("/" ++ name))]

/-- `UserDir.Mkdir` (src/app/fs.go lines 44–49). -/
def UserDir.Mkdir (d : UserDir) (ctx : Option AuthInfo) (name : String) : Outcome :=
  let r := d.resolve ctx name
  if r = "" then .errNotExist
  else .fsCall [r]

/-- `UserDir.OpenFile` (src/app/fs.go lines 52–61); the flag is passed to
the underlying open but gates nothing. -/
def UserDir.OpenFile (d : UserDir) (ctx : Option AuthInfo) (name : String)
    (flag : Nat) : Outcome :=
  let r := d.resolve ctx name
  if r = "" then .errNotExist
  else .fsCall [r]

/-- `UserDir.RemoveAll` (src/app/fs.go lines 64–73). -/
def UserDir.RemoveAll (d : UserDir) (ctx : Option AuthInfo) (name : String) : Outcome :=
  let r := d.resolve ctx name
  if r = "" then .errNotExist
  else if r = pathClean d.baseDir then .errInvalid
  else .fsCall [r]

/-- `UserDir.Rename` (src/app/fs.go lines 76–88). -/
def UserDir.Rename (d : UserDir) (ctx : Option AuthInfo) (oldName newName : String) : Outcome :=
  let o := d.resolve ctx oldName
  if o = "" then .errNotExist
  else
    let n := d.resolve ctx newName
    if n = "" then .errNotExist
    else if pathClean d.baseDir = o ∨ pathClean d.baseDir = n then .errInvalid
    else .fsCall [o, n]

/-- `UserDir.Stat` (src/app/fs.go lines 91–96). -/
def UserDir.Stat (d : UserDir) (ctx : Option AuthInfo) (name : String) : Outcome :=
  let r := d.resolve ctx name
  if r = "" then .errNotExist
  else .fsCall [r]

/-! ## Lemmas: splitting and joining segments -/

theorem segsOf_ne_nil (cs : List Char) : segsOf cs ≠ [] := by
  cases cs with
  | nil => simp [segsOf]
  | cons c cs =>
    by_cases h : c = '/' <;> simp [segsOf, h]

theorem segsOf_append_slash (a b : List Char) :
    segsOf (a ++ '/' :: b) = segsOf a ++ segsOf b := by
  induction a with
  | nil => simp [segsOf]
  | cons c a ih =>
    by_cases h : c = '/'
    · simp [segsOf, h, ih]
    · have hne := segsOf_ne_nil a
      cases ha : segsOf a with
      | nil => exact absurd ha hne
      | cons s ss => simp [segsOf, h, ih, ha]

theorem noslash_of_mem_segsOf (cs : List Char) (s : Seg) (hmem : s ∈ segsOf cs) :
    '/' ∉ s := by
  induction cs generalizing s with
  | nil =>
    simp [segsOf] at hmem
    simp [hmem]
  | cons c cs ih =>
    by_cases h : c = '/'
    · simp [segsOf, h] at hmem
      rcases hmem with hmem | hmem
      · simp [hmem]
      · exact ih s hmem
    · simp [segsOf, h] at hmem
      rcases hmem with hmem | hmem
      · subst hmem
        intro hin
        rcases List.mem_cons.mp hin with hc | hd
        · exact h hc.symm
        · cases hs : segsOf cs with
          | nil => exact absurd hs (segsOf_ne_nil cs)
          | cons t ts =>
            refine ih t ?_ ?_
            · simp [hs]
            · simpa [hs] using hd
      · refine ih s (List.mem_of_mem_tail hmem)

theorem segsOf_noslash (s : List Char) (h : '/' ∉ s) : segsOf s = [s] := by
  induction s with
  | nil => simp [segsOf]
  | cons c cs ih =>
    have hc : c ≠ '/' := by
      intro hc
      exact h (by simp [hc])
    have hcs : '/' ∉ cs := by
      intro hin
      exact h (List.mem_cons_of_mem _ hin)
    simp [segsOf, hc, ih hcs]

theorem joinSegs_ne_nil (l : List Seg) (hl : l ≠ []) (h : ∀ s ∈ l, s ≠ []) :
    joinSegs l ≠ [] := by
  cases l with
  | nil => exact absurd rfl hl
  | cons s ss =>
    cases ss with
    | nil => simpa [joinSegs] using h s (by simp)
    | cons t ts =>
      have hs := h s (by simp)
      cases s with
      | nil => exact absurd rfl hs
      | cons c cs => simp [joinSegs]

theorem segsOf_joinSegs (l : List Seg) (hl : l ≠ []) (h : ∀ s ∈ l, '/' ∉ s) :
    segsOf (joinSegs l) = l := by
  induction l with
  | nil => exact absurd rfl hl
  | cons s ss ih =>
    cases ss with
    | nil => simpa [joinSegs] using segsOf_noslash s (h s (by simp))
    | cons t ts =>
      have hstep : joinSegs (s :: t :: ts) = s ++ '/' :: joinSegs (t :: ts) := rfl
      rw [hstep, segsOf_append_slash, segsOf_noslash s (h s (by simp)),
        ih (by simp) (fun u hu => h u (List.mem_cons_of_mem _ hu))]
      rfl

/-! ## Lemmas: the clean stack -/

/-- A segment the clean loop pushes verbatim. -/
def isPushSeg (s : Seg) : Prop :=
  s ≠ [] ∧ s ≠ ['.'] ∧ s ≠ dotdot ∧ '/' ∉ s

/-- Shape invariant of stacks produced by the clean loop: verbatim-pushed
segments on top of a (necessarily unrooted) run of `".."` segments. -/
def StackInv (rooted : Bool) (st : List Seg) : Prop :=
  ∃ ps ds : List Seg, st = ps ++ ds ∧ (∀ s ∈ ps, isPushSeg s) ∧
    (∀ s ∈ ds, s = dotdot) ∧ (rooted = true → ds = [])

theorem cleanPush_pushSeg (r : Bool) (st : List Seg) (s : Seg) (h : isPushSeg s) :
    cleanPush r st s = s :: st := by
  obtain ⟨h1, h2, h3, _⟩ := h
  simp [cleanPush, h1, h2, h3]

theorem cleanPush_skip (r : Bool) (st : List Seg) (s : Seg) (h : s = [] ∨ s = ['.']) :
    cleanPush r st s = st := by
  simp only [cleanPush]
  rw [if_pos h]

theorem foldl_push_only (r : Bool) (l : List Seg) (st : List Seg)
    (h : ∀ s ∈ l, isPushSeg s) :
    l.foldl (cleanPush r) st = l.reverse ++ st := by
  induction l generalizing st with
  | nil => simp
  | cons s l ih =>
    rw [List.foldl_cons, cleanPush_pushSeg r st s (h s (by simp)),
      ih (s :: st) (fun u hu => h u (by simp [hu]))]
    simp

theorem cleanPush_dotdot_all (st : List Seg) (hst : ∀ s ∈ st, s = dotdot) :
    cleanPush false st dotdot = dotdot :: st := by
  cases st with
  | nil => simp [cleanPush, dotdot]
  | cons t rest =>
    have ht := hst t (by simp)
    simp [cleanPush, dotdot] at *
    simp [ht]

theorem foldl_dotdots (l st : List Seg) (hl : ∀ s ∈ l, s = dotdot)
    (hst : ∀ s ∈ st, s = dotdot) :
    l.foldl (cleanPush false) st = l.reverse ++ st := by
  induction l generalizing st with
  | nil => simp
  | cons s l ih =>
    have hs := hl s (by simp)
    subst hs
    rw [List.foldl_cons, cleanPush_dotdot_all st hst,
      ih (dotdot :: st) (fun u hu => hl u (by simp [hu]))
        (fun u hu => by
          rcases List.mem_cons.mp hu with h | h
          exacts [h, hst u h])]
    simp

theorem stackInv_nil (r : Bool) : StackInv r [] :=
  ⟨[], [], rfl, by simp, by simp, fun _ => rfl⟩

theorem stackInv_push (r : Bool) (st : List Seg) (s : Seg)
    (hinv : StackInv r st) (hs : '/' ∉ s) : StackInv r (cleanPush r st s) := by
  obtain ⟨ps, ds, hst, hps, hds, hr⟩ := hinv
  by_cases h1 : s = [] ∨ s = ['.']
  · rw [cleanPush_skip r st s h1]
    exact ⟨ps, ds, hst, hps, hds, hr⟩
  by_cases h2 : s = dotdot
  · subst h2
    subst hst
    simp only [cleanPush, if_neg h1, if_pos rfl]
    cases hp : ps with
    | nil =>
      cases hd : ds with
      | nil =>
        simp only [List.nil_append]
        cases r with
        | true => exact ⟨[], [], by simp, by simp, by simp, fun _ => rfl⟩
        | false =>
          refine ⟨[], [dotdot], by simp, by simp, by simp, by simp⟩
      | cons t rest =>
        have ht : t = dotdot := hds t (by simp [hd])
        have hrest : ∀ u ∈ rest, u = dotdot := fun u hu => hds u (by simp [hd, hu])
        have hrfalse : r = false := by
          cases r with
          | false => rfl
          | true => exact absurd (hr rfl) (by simp [hd])
        simp only [List.nil_append, ht, if_pos rfl]
        exact ⟨[], dotdot :: dotdot :: rest, by simp [ht], by simp,
          by
            intro u hu
            rcases List.mem_cons.mp hu with h | h
            · exact h
            rcases List.mem_cons.mp h with h | h
            · exact h
            · exact hrest u h,
          by simp [hrfalse]⟩
    | cons p ps' =>
      have hp1 : isPushSeg p := hps p (by simp [hp])
      have hpd : p ≠ dotdot := hp1.2.2.1
      simp only [List.cons_append, if_neg hpd]
      exact ⟨ps', ds, rfl, fun u hu => hps u (by simp [hp, hu]), hds, hr⟩
  · have h1' := not_or.mp h1
    simp only [cleanPush, if_neg h1, if_neg h2]
    exact ⟨s :: ps, ds, by rw [hst, List.cons_append], by
      intro u hu
      rcases List.mem_cons.mp hu with h | h
      · subst h
        exact ⟨h1'.1, h1'.2, h2, hs⟩
      · exact hps u h, hds, hr⟩

theorem stackInv_foldl (r : Bool) (l : List Seg) (st : List Seg)
    (hinv : StackInv r st) (h : ∀ s ∈ l, '/' ∉ s) :
    StackInv r (l.foldl (cleanPush r) st) := by
  induction l generalizing st with
  | nil => simpa using hinv
  | cons s l ih =>
    rw [List.foldl_cons]
    exact ih (cleanPush r st s) (stackInv_push r st s hinv (h s (by simp)))
      (fun u hu => h u (by simp [hu]))

theorem stackInv_prepend (r : Bool) (l st : List Seg)
    (hl : ∀ s ∈ l, isPushSeg s) (hinv : StackInv r st) : StackInv r (l ++ st) := by
  obtain ⟨ps, ds, hst, hps, hds, hr⟩ := hinv
  refine ⟨l ++ ps, ds, by rw [hst, List.append_assoc], ?_, hds, hr⟩
  intro u hu
  rcases List.mem_append.mp hu with h | h
  exacts [hl u h, hps u h]

theorem stackInv_mem (r : Bool) (st : List Seg) (hinv : StackInv r st) :
    ∀ s ∈ st, s ≠ [] ∧ '/' ∉ s := by
  obtain ⟨ps, ds, hst, hps, hds, _⟩ := hinv
  subst hst
  intro s hmem
  rcases List.mem_append.mp hmem with h | h
  · exact ⟨(hps s h).1, (hps s h).2.2.2⟩
  · rw [hds s h]
    refine ⟨by simp [dotdot], by simp [dotdot]⟩

theorem stackInv_rooted_pushSegs (st : List Seg) (hinv : StackInv true st) :
    ∀ s ∈ st, isPushSeg s := by
  obtain ⟨ps, ds, hst, hps, _, hr⟩ := hinv
  rw [hr rfl, List.append_nil] at hst
  subst hst
  exact hps

/-! ## Lemmas: rendering and re-parsing a cleaned stack -/

theorem renderClean_ne_nil (r : Bool) (st : List Seg) : renderClean r st ≠ [] := by
  simp only [renderClean]
  cases r with
  | true => simp
  | false =>
    by_cases hb : joinSegs st.reverse = [] <;> simp [hb]

theorem rootedOf_joinSegs (l : List Seg) (h : ∀ s ∈ l, s ≠ [] ∧ '/' ∉ s) :
    rootedOf (joinSegs l) = false := by
  cases l with
  | nil => rfl
  | cons s ss =>
    obtain ⟨hne, hns⟩ := h s (by simp)
    cases s with
    | nil => exact absurd rfl hne
    | cons c cs =>
      have hc : c ≠ '/' := fun hc => hns (by simp [hc])
      cases ss with
      | nil => simp [joinSegs, rootedOf, hc]
      | cons t ts => simp [joinSegs, rootedOf, hc]

theorem rootedOf_renderClean (r : Bool) (st : List Seg) (hinv : StackInv r st) :
    rootedOf (renderClean r st) = r := by
  simp only [renderClean]
  cases r with
  | true => simp [rootedOf]
  | false =>
    by_cases hb : joinSegs st.reverse = []
    · simp [hb, rootedOf]
    · simp only [hb, if_neg, Bool.false_eq_true, ↓reduceIte]
      exact rootedOf_joinSegs st.reverse
        (fun s hs => stackInv_mem false st hinv s (List.mem_reverse.mp hs))

theorem refold_foldl (r : Bool) (st : List Seg) (hinv : StackInv r st) :
    (segsOf (renderClean r st)).foldl (cleanPush r) [] = st := by
  obtain ⟨ps, ds, hst, hps, hds, hr⟩ := hinv
  subst hst
  cases r with
  | true =>
    have hds0 : ds = [] := hr rfl
    subst hds0
    simp only [renderClean, List.append_nil, if_pos]
    have hsegs : segsOf ('/' :: joinSegs ps.reverse) = [] :: segsOf (joinSegs ps.reverse) := by
      simp [segsOf]
    rw [hsegs, List.foldl_cons, cleanPush_skip true [] [] (Or.inl rfl)]
    by_cases hps0 : ps = []
    · subst hps0
      simp [joinSegs, segsOf, cleanPush]
    · rw [segsOf_joinSegs ps.reverse (by simpa using hps0)
        (fun s hs => (hps s (List.mem_reverse.mp hs)).2.2.2),
        foldl_push_only true ps.reverse []
          (fun s hs => hps s (List.mem_reverse.mp hs))]
      simp
  | false =>
    by_cases hnil : ps ++ ds = []
    · have hps0 : ps = [] := by
        cases ps with
        | nil => rfl
        | cons p pt => simp at hnil
      have hds0 : ds = [] := by
        cases ds with
        | nil => rfl
        | cons q qt => simp [hps0] at hnil
      subst hps0; subst hds0
      simp [renderClean, joinSegs, segsOf, cleanPush]
    · have hmem : ∀ s ∈ ps ++ ds, s ≠ [] ∧ '/' ∉ s :=
        stackInv_mem false (ps ++ ds) ⟨ps, ds, rfl, hps, hds, by simp⟩
      have hrevne : (ps ++ ds).reverse ≠ [] := by
        intro h
        rw [List.reverse_eq_nil_iff] at h
        exact hnil h
      have hbody : joinSegs (ps ++ ds).reverse ≠ [] :=
        joinSegs_ne_nil (ps ++ ds).reverse hrevne
          (fun s hs => (hmem s (List.mem_reverse.mp hs)).1)
      simp only [renderClean, Bool.false_eq_true, ↓reduceIte, hbody]
      rw [segsOf_joinSegs (ps ++ ds).reverse hrevne
        (fun s hs => (hmem s (List.mem_reverse.mp hs)).2)]
      rw [List.reverse_append, List.foldl_append]
      rw [foldl_dotdots ds.reverse []
        (fun s hs => hds s (List.mem_reverse.mp hs)) (by simp)]
      rw [List.append_nil, List.reverse_reverse]
      rw [foldl_push_only false ps.reverse ds
        (fun s hs => hps s (List.mem_reverse.mp hs))]
      simp

/-! ## Lemmas: strings, pathClean, filepathJoin -/

theorem strData_append (s t : String) : (s ++ t).data = s.data ++ t.data := by
  cases s
  cases t
  rfl

theorem str_eq_iff_data (s t : String) : s = t ↔ s.data = t.data := by
  constructor
  · intro h
    rw [h]
  · intro h
    cases s
    cases t
    cases h
    rfl

theorem slash_append_data (name : String) : ("/" ++ name).data = '/' :: name.data := by
  rw [strData_append]
  rfl

theorem pathCleanChars_ne_nil (p : List Char) : pathCleanChars p ≠ [] := by
  cases p with
  | nil => simp [pathCleanChars]
  | cons c cs => exact renderClean_ne_nil _ _

theorem pathClean_ne_empty (p : String) : pathClean p ≠ "" := by
  rw [Ne, str_eq_iff_data]
  exact pathCleanChars_ne_nil p.data

theorem pathCleanChars_eq (p : List Char) (hp : p ≠ []) :
    pathCleanChars p = renderClean (rootedOf p) (rawStack p) := by
  cases p with
  | nil => exact absurd rfl hp
  | cons c cs => rfl

theorem rootedOf_append (a b : List Char) (ha : a ≠ []) :
    rootedOf (a ++ b) = rootedOf a := by
  cases a with
  | nil => exact absurd rfl ha
  | cons c cs => rfl

theorem rootedOf_slash (cs : List Char) : rootedOf ('/' :: cs) = true := by
  simp [rootedOf]

theorem filepathJoin_two (a b : String) (ha : a ≠ "") :
    filepathJoin [a, b] = pathClean (String.mk (a.data ++ '/' :: b.data)) := by
  have hbeq : (a == "") = false := beq_eq_false_iff_ne.mpr ha
  simp only [filepathJoin, List.dropWhile_cons, hbeq, Bool.false_eq_true, ↓reduceIte]
  simp [joinSegs]

theorem filepathJoin_three (a b c : String) (ha : a ≠ "") :
    filepathJoin [a, b, c]
      = pathClean (String.mk (a.data ++ '/' :: (b.data ++ '/' :: c.data))) := by
  have hbeq : (a == "") = false := beq_eq_false_iff_ne.mpr ha
  simp only [filepathJoin, List.dropWhile_cons, hbeq, Bool.false_eq_true, ↓reduceIte]
  simp [joinSegs]

/-! ## Lemmas: the clean stack of the virtual path, and join composition -/

/-- The clean stack of the rooted virtual path `"/" ++ name`. -/
def vStack (name : String) : List Seg :=
  (segsOf ('/' :: name.data)).foldl (cleanPush true) []

theorem vStack_inv (name : String) : StackInv true (vStack name) :=
  stackInv_foldl true _ [] (stackInv_nil true)
    (fun s hs => noslash_of_mem_segsOf _ s hs)

theorem vStack_pushSegs (name : String) : ∀ s ∈ vStack name, isPushSeg s :=
  stackInv_rooted_pushSegs _ (vStack_inv name)

theorem pathCleanChars_rooted (name : String) :
    pathCleanChars ('/' :: name.data) = '/' :: joinSegs (vStack name).reverse := by
  simp [pathCleanChars, rawStack, rootedOf_slash, renderClean, vStack]

theorem foldl_cleaned (r : Bool) (B : List Seg) (name : String) :
    (segsOf (pathCleanChars ('/' :: name.data))).foldl (cleanPush r) B
      = vStack name ++ B := by
  rw [pathCleanChars_rooted]
  have hsegs : segsOf ('/' :: joinSegs (vStack name).reverse)
      = [] :: segsOf (joinSegs (vStack name).reverse) := by
    simp [segsOf]
  rw [hsegs, List.foldl_cons, cleanPush_skip r B [] (Or.inl rfl)]
  by_cases h0 : vStack name = []
  · rw [h0]
    simp [joinSegs, segsOf, cleanPush]
  · rw [segsOf_joinSegs (vStack name).reverse
      (by rw [Ne, List.reverse_eq_nil_iff]; exact h0)
      (fun s hs => (vStack_pushSegs name s (List.mem_reverse.mp hs)).2.2.2),
      foldl_push_only r (vStack name).reverse B
        (fun s hs => vStack_pushSegs name s (List.mem_reverse.mp hs))]
    simp

theorem pathCleanChars_join (pre : List Char) (hpre : pre ≠ []) (name : String) :
    pathCleanChars (pre ++ '/' :: pathCleanChars ('/' :: name.data))
      = renderClean (rootedOf pre)
          (vStack name ++ (segsOf pre).foldl (cleanPush (rootedOf pre)) []) := by
  have hne : pre ++ '/' :: pathCleanChars ('/' :: name.data) ≠ [] := by
    intro h
    exact hpre (List.append_eq_nil.mp h).1
  have hrs : rawStack (pre ++ '/' :: pathCleanChars ('/' :: name.data))
      = (segsOf (pre ++ '/' :: pathCleanChars ('/' :: name.data))).foldl
          (cleanPush (rootedOf pre)) [] := by
    simp only [rawStack, rootedOf_append pre _ hpre]
  rw [pathCleanChars_eq _ hne, hrs, rootedOf_append pre _ hpre,
    segsOf_append_slash, List.foldl_append, foldl_cleaned]

theorem rawStack_renderClean (r : Bool) (st : List Seg) (hinv : StackInv r st) :
    rawStack (renderClean r st) = st := by
  have h1 : rootedOf (renderClean r st) = r := rootedOf_renderClean _ _ hinv
  simp only [rawStack, h1]
  exact refold_foldl _ _ hinv

theorem cleanParts_pathClean (p : String) : cleanParts (pathClean p) = cleanParts p := by
  by_cases hp : p.data = []
  · have hpe : p = "" := (str_eq_iff_data p "").mpr (by simpa using hp)
    subst hpe
    decide
  · have hinv : StackInv (rootedOf p.data) (rawStack p.data) :=
      stackInv_foldl _ _ [] (stackInv_nil _) (fun s hs => noslash_of_mem_segsOf _ s hs)
    have hdata : (pathClean p).data = renderClean (rootedOf p.data) (rawStack p.data) :=
      pathCleanChars_eq p.data hp
    have hroot : rootedOf (pathClean p).data = rootedOf p.data := by
      rw [hdata, rootedOf_renderClean _ _ hinv]
    have hstack : rawStack (pathClean p).data = rawStack p.data := by
      rw [hdata]
      exact rawStack_renderClean _ _ hinv
    simp [cleanParts, hroot, hstack]

/-! ## Lemmas: characterizing Dir.resolve -/

theorem mkData (l : List Char) : (String.mk l).data = l := rfl

/-- The path-safety guard of `resolve` (lines 36–39): reject a foreign
native separator in the name, or a NUL byte. -/
def resolveGuard (name : String) : Bool :=
  (!(filepathSeparator == '/') && name.data.contains filepathSeparator)
    || name.data.contains nulChar

/-- The root directory with the empty-string fallback (lines 40–43). -/
def fallbackDir (d : Dir) : String :=
  if d.config.dir = "" then "." else d.config.dir

/-- The subdirectory `resolve` honours: the policy's subdirectory for an
authenticated user that has a policy entry, otherwise nothing. -/
def userSubdir (d : Dir) (ctx : Option AuthInfo) : Option String :=
  match ctx with
  | some a =>
    if a.authenticated then
      match d.config.users.lookup a.username with
      | some u => u.subdir
      | none => none
    else none
  | none => none

/-- The base directory `Dir.resolve` joins the cleaned virtual path onto:
the configured root, or root/subdir when the authenticated user's policy
declares a subdirectory. -/
def resolveBase (d : Dir) (ctx : Option AuthInfo) : String :=
  match userSubdir d ctx with
  | some sub => filepathJoin [fallbackDir d, sub]
  | none => fallbackDir d

theorem fallbackDir_ne_empty (d : Dir) : fallbackDir d ≠ "" := by
  simp only [fallbackDir]
  by_cases h : d.config.dir = "" <;> simp [h]

theorem resolve_cases (d : Dir) (ctx : Option AuthInfo) (name : String) :
    Dir.resolve d ctx name
      = if resolveGuard name then ""
        else
          match userSubdir d ctx with
          | some sub => filepathJoin [fallbackDir d, sub, pathClean ("/" ++ name)]
          | none => filepathJoin [fallbackDir d, pathClean ("/" ++ name)] := by
  rcases ctx with _ | a
  · simp [Dir.resolve, resolveGuard, userSubdir, fallbackDir, filepathFromSlash]
  · by_cases hauth : a.authenticated
    · cases hu : d.config.users.lookup a.username with
      | none =>
        simp [Dir.resolve, resolveGuard, userSubdir, fallbackDir, filepathFromSlash,
          hauth, hu]
      | some u =>
        cases hsub : u.subdir with
        | none =>
          simp [Dir.resolve, resolveGuard, userSubdir, fallbackDir, filepathFromSlash,
            hauth, hu, hsub]
        | some sub =>
          simp [Dir.resolve, resolveGuard, userSubdir, fallbackDir, filepathFromSlash,
            hauth, hu, hsub]
    · simp [Dir.resolve, resolveGuard, userSubdir, fallbackDir, filepathFromSlash, hauth]

theorem resolve_ne_empty (d : Dir) (ctx : Option AuthInfo) (name : String)
    (hg : resolveGuard name = false) : Dir.resolve d ctx name ≠ "" := by
  rw [resolve_cases]
  simp only [hg, Bool.false_eq_true, ↓reduceIte]
  cases husd : userSubdir d ctx with
  | some sub =>
    show filepathJoin [fallbackDir d, sub, pathClean ("/" ++ name)] ≠ ""
    rw [filepathJoin_three _ _ _ (fallbackDir_ne_empty d)]
    exact pathClean_ne_empty _
  | none =>
    show filepathJoin [fallbackDir d, pathClean ("/" ++ name)] ≠ ""
    rw [filepathJoin_two _ _ (fallbackDir_ne_empty d)]
    exact pathClean_ne_empty _

theorem resolve_eq_empty_iff (d : Dir) (ctx : Option AuthInfo) (name : String) :
    Dir.resolve d ctx name = "" ↔ resolveGuard name = true := by
  constructor
  · intro h
    by_cases hg : resolveGuard name = true
    · exact hg
    · exact absurd h (resolve_ne_empty d ctx name (by simpa using hg))
  · intro hg
    rw [resolve_cases, if_pos hg]

/-! ## Lemmas: containment of resolved paths -/

theorem pathClean_slash_data (name : String) :
    (pathClean ("/" ++ name)).data = pathCleanChars ('/' :: name.data) := by
  simp only [pathClean, mkData, slash_append_data]

theorem cleanParts_mk_join (pre : List Char) (hpre : pre ≠ []) (name : String) :
    cleanParts (String.mk (pre ++ '/' :: pathCleanChars ('/' :: name.data)))
      = (rootedOf pre,
        ((segsOf pre).foldl (cleanPush (rootedOf pre)) []).reverse
          ++ (vStack name).reverse) := by
  have hraw : rawStack (pre ++ '/' :: pathCleanChars ('/' :: name.data))
      = vStack name ++ (segsOf pre).foldl (cleanPush (rootedOf pre)) [] := by
    simp only [rawStack, rootedOf_append pre _ hpre, segsOf_append_slash,
      List.foldl_append, foldl_cleaned]
  simp only [cleanParts, mkData, hraw, rootedOf_append pre _ hpre, List.reverse_append]

theorem strData_ne_nil (s : String) (hs : s ≠ "") : s.data ≠ [] := by
  intro h
  exact hs ((str_eq_iff_data s "").mpr (by simpa using h))

theorem cleanParts_join2 (dir : String) (hdir : dir ≠ "") (name : String) :
    cleanParts (filepathJoin [dir, pathClean ("/" ++ name)])
      = ((cleanParts dir).1, (cleanParts dir).2 ++ (vStack name).reverse) := by
  rw [filepathJoin_two _ _ hdir, cleanParts_pathClean, pathClean_slash_data,
    cleanParts_mk_join dir.data (strData_ne_nil dir hdir) name]
  simp [cleanParts, rawStack]

theorem cleanParts_join3 (dir sub : String) (hdir : dir ≠ "") (name : String) :
    cleanParts (filepathJoin [dir, sub, pathClean ("/" ++ name)])
      = ((cleanParts (filepathJoin [dir, sub])).1,
        (cleanParts (filepathJoin [dir, sub])).2 ++ (vStack name).reverse) := by
  have hd : dir.data ≠ [] := strData_ne_nil dir hdir
  have hpre : dir.data ++ '/' :: sub.data ≠ [] := by
    intro h
    exact hd (List.append_eq_nil.mp h).1
  rw [filepathJoin_three _ _ _ hdir, cleanParts_pathClean, pathClean_slash_data]
  have hassoc : dir.data ++ '/' :: (sub.data ++ '/' :: pathCleanChars ('/' :: name.data))
      = (dir.data ++ '/' :: sub.data) ++ '/' :: pathCleanChars ('/' :: name.data) := by
    simp
  rw [hassoc, cleanParts_mk_join _ hpre name,
    filepathJoin_two _ _ hdir, cleanParts_pathClean]
  simp [cleanParts, rawStack, mkData]

theorem isUnder_append (b p : String) (l : List Seg)
    (h : cleanParts p = ((cleanParts b).1, (cleanParts b).2 ++ l)) :
    isUnder b p = true := by
  have h1 : (cleanParts p).1 = (cleanParts b).1 := by rw [h]
  have h2 : (cleanParts p).2 = (cleanParts b).2 ++ l := by rw [h]
  simp only [isUnder, h1, h2]
  rw [Bool.and_eq_true]
  refine ⟨by simp, List.isPrefixOf_iff_prefix.mpr (List.prefix_append _ _)⟩

/-! ## Claim C1: resolution is lexically contained in the base -/

/-- C1: for every virtual path (including paths with `..` segments) and
every authentication context, a non-empty `Dir.resolve` result is lexically
contained within the configured root directory — or within root/subdir when
the authenticated user's policy declares a subdirectory (`resolveBase`);
resolution never produces a path outside that base. -/
theorem C1_resolve_contained (d : Dir) (ctx : Option AuthInfo) (name : String)
    (h : Dir.resolve d ctx name ≠ "") :
    isUnder (resolveBase d ctx) (Dir.resolve d ctx name) = true := by
  have hg : resolveGuard name = false := by
    by_cases hgt : resolveGuard name = true
    · exact absurd ((resolve_eq_empty_iff d ctx name).mpr hgt) h
    · simpa using hgt
  rw [resolve_cases]
  simp only [hg, Bool.false_eq_true, ↓reduceIte]
  cases husd : userSubdir d ctx with
  | none =>
    show isUnder (resolveBase d ctx)
      (filepathJoin [fallbackDir d, pathClean ("/" ++ name)]) = true
    have hbase : resolveBase d ctx = fallbackDir d := by
      simp [resolveBase, husd]
    rw [hbase]
    exact isUnder_append _ _ (vStack name).reverse
      (cleanParts_join2 _ (fallbackDir_ne_empty d) name)
  | some sub =>
    show isUnder (resolveBase d ctx)
      (filepathJoin [fallbackDir d, sub, pathClean ("/" ++ name)]) = true
    have hbase : resolveBase d ctx = filepathJoin [fallbackDir d, sub] := by
      simp [resolveBase, husd]
    rw [hbase]
    exact isUnder_append _ _ (vStack name).reverse
      (cleanParts_join3 _ _ (fallbackDir_ne_empty d) name)

/-- Witness for C1 at a concrete traversal attempt: `"/a/../../x"` under
root `"/data"` resolves inside the root. -/
theorem C1_resolve_contained_witness :
    isUnder (resolveBase ⟨⟨"/data", [], ⟨false, false, false, false⟩⟩⟩ none)
      (Dir.resolve ⟨⟨"/data", [], ⟨false, false, false, false⟩⟩⟩ none "/a/../../x")
      = true :=
  C1_resolve_contained ⟨⟨"/data", [], ⟨false, false, false, false⟩⟩⟩ none
    "/a/../../x" (by decide)

/-! ## Claim C8: which base the cleaned path is joined onto -/

theorem filepathJoin_nested (a b : String) (ha : a ≠ "") (name : String) :
    filepathJoin [a, b, pathClean ("/" ++ name)]
      = filepathJoin [filepathJoin [a, b], pathClean ("/" ++ name)] := by
  have hd : a.data ≠ [] := strData_ne_nil a ha
  have hpre : a.data ++ '/' :: b.data ≠ [] := by
    intro h
    exact hd (List.append_eq_nil.mp h).1
  have hab : filepathJoin [a, b] = pathClean (String.mk (a.data ++ '/' :: b.data)) :=
    filepathJoin_two a b ha
  have habne : filepathJoin [a, b] ≠ "" := by
    rw [hab]
    exact pathClean_ne_empty _
  rw [filepathJoin_three a b _ ha, filepathJoin_two _ _ habne, str_eq_iff_data]
  simp only [pathClean, mkData, slash_append_data]
  have hassoc : a.data ++ '/' :: (b.data ++ '/' :: pathCleanChars ('/' :: name.data))
      = (a.data ++ '/' :: b.data) ++ '/' :: pathCleanChars ('/' :: name.data) := by
    simp
  have hdata2 : (filepathJoin [a, b]).data = pathCleanChars (a.data ++ '/' :: b.data) := by
    rw [hab]
    rfl
  rw [hassoc, hdata2, pathCleanChars_join _ hpre name,
    pathCleanChars_join _ (pathCleanChars_ne_nil (a.data ++ '/' :: b.data)) name]
  have hinv : StackInv (rootedOf (a.data ++ '/' :: b.data))
      (rawStack (a.data ++ '/' :: b.data)) :=
    stackInv_foldl _ _ [] (stackInv_nil _) (fun s hs => noslash_of_mem_segsOf _ s hs)
  have h1 : rootedOf (pathCleanChars (a.data ++ '/' :: b.data))
      = rootedOf (a.data ++ '/' :: b.data) := by
    rw [pathCleanChars_eq _ hpre]
    exact rootedOf_renderClean _ _ hinv
  have h2 : (segsOf (pathCleanChars (a.data ++ '/' :: b.data))).foldl
        (cleanPush (rootedOf (pathCleanChars (a.data ++ '/' :: b.data)))) []
      = rawStack (a.data ++ '/' :: b.data) := by
    rw [pathCleanChars_eq _ hpre]
    exact rawStack_renderClean _ _ hinv
  rw [h2, h1]
  simp only [rawStack]

/-- Modelled from the spec (§4.1, user-specific case): resolution joins the
cleaned virtual path onto `root/subdir` when the context is authenticated
and the matching user policy declares a subdirectory, and onto `root`
otherwise (no auth info, unauthenticated, no policy entry, or no declared
subdirectory). -/
def resolveSpec (d : Dir) (ctx : Option AuthInfo) (name : String) : String :=
  if resolveGuard name then ""
  else filepathJoin [resolveBase d ctx, pathClean ("/" ++ name)]

/-- C8: `Dir.resolve` joins the cleaned path onto root/subdir exactly when
the context is authenticated and its user policy declares a subdirectory,
and onto the root directly in every other case — it coincides with the
spec-worded two-step resolution `resolveSpec`. -/
theorem C8_resolve_base_selection (d : Dir) (ctx : Option AuthInfo) (name : String) :
    Dir.resolve d ctx name = resolveSpec d ctx name := by
  rw [resolve_cases]
  simp only [resolveSpec]
  by_cases hg : resolveGuard name = true
  · simp [hg]
  · have hg' : resolveGuard name = false := by simpa using hg
    simp only [hg', Bool.false_eq_true, ↓reduceIte]
    cases husd : userSubdir d ctx with
    | none =>
      show filepathJoin [fallbackDir d, pathClean ("/" ++ name)]
        = filepathJoin [resolveBase d ctx, pathClean ("/" ++ name)]
      have hbase : resolveBase d ctx = fallbackDir d := by
        simp [resolveBase, husd]
      rw [hbase]
    | some sub =>
      show filepathJoin [fallbackDir d, sub, pathClean ("/" ++ name)]
        = filepathJoin [resolveBase d ctx, pathClean ("/" ++ name)]
      have hbase : resolveBase d ctx = filepathJoin [fallbackDir d, sub] := by
        simp [resolveBase, husd]
      rw [hbase]
      exact filepathJoin_nested _ _ (fallbackDir_ne_empty d) name

/-! ## Claim C5: rejection happens exactly on NUL (or a foreign separator) -/

/-- C5: `Dir.resolve` rejects a virtual path — making all five operations
return NotFound before touching the filesystem — exactly when the path
contains a NUL byte or, on a platform whose native separator is not `'/'`,
that separator; in particular a NUL byte yields NotFound regardless of the
authentication context. -/
theorem C5_resolve_rejects_iff (d : Dir) (ctx : Option AuthInfo) (name other : String)
    (flag : Nat) (isdir : Bool) :
    (Dir.resolve d ctx name = ""
      ↔ (name.data.contains nulChar = true
        ∨ (¬filepathSeparator = '/' ∧ name.data.contains filepathSeparator = true)))
    ∧ (Dir.resolve d ctx name = "" →
      Dir.Mkdir d ctx name = Outcome.errNotExist
      ∧ Dir.OpenFile d ctx name flag isdir = Outcome.errNotExist
      ∧ Dir.RemoveAll d ctx name = Outcome.errNotExist
      ∧ Dir.Rename d ctx name other = Outcome.errNotExist
      ∧ Dir.Rename d ctx other name = Outcome.errNotExist
      ∧ Dir.Stat d ctx name = Outcome.errNotExist) := by
  constructor
  · rw [resolve_eq_empty_iff]
    simp [resolveGuard, filepathSeparator]
  · intro h
    refine ⟨by simp [Dir.Mkdir, h], by simp [Dir.OpenFile, h],
      by simp [Dir.RemoveAll, h], by simp [Dir.Rename, h],
      by simp [Dir.Rename, h], by simp [Dir.Stat, h]⟩

/-- Witness for C5: a name with a NUL byte makes `Mkdir` return NotFound. -/
theorem C5_resolve_rejects_iff_witness :
    Dir.Mkdir ⟨⟨"/data", [], ⟨false, false, false, false⟩⟩⟩ none "/a\x00b"
      = Outcome.errNotExist :=
  ((C5_resolve_rejects_iff ⟨⟨"/data", [], ⟨false, false, false, false⟩⟩⟩ none
    "/a\x00b" "" 0 false).2 (by decide)).1

/-! ## Claim C4: unauthenticated requests and the empty user table -/

/-- C4: for an unauthenticated request (no auth info, or auth info with the
authenticated bit unset), every permission check evaluates to "user table
is empty": with zero configured users nothing is ever denied, and with at
least one configured user every operation reaching its permission check
returns PermissionDenied. -/
theorem C4_unauthenticated_open_access (d : Dir) (ctx : Option AuthInfo)
    (name other : String) (flag : Nat) (isdir : Bool)
    (hctx : ctx = none ∨ ∃ a, ctx = some a ∧ a.authenticated = false) :
    (hasRead ctx d = some d.config.users.isEmpty
      ∧ hasWrite ctx d = some d.config.users.isEmpty
      ∧ hasDelete ctx d = some d.config.users.isEmpty
      ∧ hasList ctx d = some d.config.users.isEmpty)
    ∧ (d.config.users = [] →
      Dir.Mkdir d ctx name ≠ Outcome.errPermission
      ∧ Dir.OpenFile d ctx name flag isdir ≠ Outcome.errPermission
      ∧ Dir.RemoveAll d ctx name ≠ Outcome.errPermission
      ∧ Dir.Rename d ctx name other ≠ Outcome.errPermission
      ∧ Dir.Stat d ctx name ≠ Outcome.errPermission)
    ∧ (d.config.users ≠ [] → Dir.resolve d ctx name ≠ "" →
      Dir.Mkdir d ctx name = Outcome.errPermission
      ∧ Dir.OpenFile d ctx name flag isdir = Outcome.errPermission
      ∧ Dir.Stat d ctx name = Outcome.errPermission
      ∧ (Dir.resolve d ctx name ≠ pathClean d.config.dir →
          Dir.RemoveAll d ctx name = Outcome.errPermission)
      ∧ (Dir.resolve d ctx other ≠ "" →
          Dir.Rename d ctx name other = Outcome.errPermission)) := by
  have hperm : hasRead ctx d = some d.config.users.isEmpty
      ∧ hasWrite ctx d = some d.config.users.isEmpty
      ∧ hasDelete ctx d = some d.config.users.isEmpty
      ∧ hasList ctx d = some d.config.users.isEmpty := by
    rcases hctx with hctx | ⟨a, hctx, hauth⟩
    · subst hctx
      simp [hasRead, hasWrite, hasDelete, hasList]
    · subst hctx
      simp [hasRead, hasWrite, hasDelete, hasList, hauth]
  obtain ⟨hR, hW, hD, hL⟩ := hperm
  refine ⟨⟨hR, hW, hD, hL⟩, ?_, ?_⟩
  · intro hempty
    have he : d.config.users.isEmpty = true := by simp [hempty]
    rw [he] at hR hW hD hL
    refine ⟨?_, ?_, ?_, ?_, ?_⟩
    · by_cases hr : d.resolve ctx name = "" <;>
        simp [Dir.Mkdir, hr, hW]
    · by_cases hr : d.resolve ctx name = "" <;>
        by_cases h4 : flag % 4 = 0 <;>
        by_cases h42 : flag % 4 = 2 <;>
        cases isdir <;>
        simp [Dir.OpenFile, hr, hW, hR, hL, h4, h42]
    · by_cases hr : d.resolve ctx name = ""
      · simp [Dir.RemoveAll, hr]
      · by_cases hroot : d.resolve ctx name = pathClean d.config.dir
        · simp only [Dir.RemoveAll, hroot]
          split
          · simp
          · split <;> simp [hD]
        · simp [Dir.RemoveAll, hr, hroot, hD]
    · by_cases hro : d.resolve ctx name = ""
      · simp [Dir.Rename, hro]
      · by_cases hrn : d.resolve ctx other = ""
        · simp [Dir.Rename, hro, hrn]
        · by_cases hroot : pathClean d.config.dir = d.resolve ctx name
            ∨ pathClean d.config.dir = d.resolve ctx other <;>
            simp [Dir.Rename, hro, hrn, hW, hroot]
    · by_cases hr : d.resolve ctx name = "" <;>
        simp [Dir.Stat, hr, hL]
  · intro hne hr
    have he : d.config.users.isEmpty = false := by
      simpa [List.isEmpty_iff] using hne
    rw [he] at hR hW hD hL
    refine ⟨?_, ?_, ?_, ?_, ?_⟩
    · simp [Dir.Mkdir, hr, hW]
    · by_cases h4 : flag % 4 = 0 <;>
        by_cases h42 : flag % 4 = 2 <;>
        cases isdir <;>
        simp [Dir.OpenFile, hr, hW, hR, hL, h4, h42]
    · simp [Dir.Stat, hr, hL]
    · intro hroot
      simp [Dir.RemoveAll, hr, hroot, hD]
    · intro hrn
      simp [Dir.Rename, hr, hrn, hW]

/-- Witness for C4: with one configured user, an anonymous `Stat` on a
resolvable path is denied. -/
theorem C4_unauthenticated_open_access_witness :
    Dir.Stat ⟨⟨"/data", [("u", ⟨none, none, none, none, none⟩)],
        ⟨false, false, false, false⟩⟩⟩ none "/x" = Outcome.errPermission :=
  ((C4_unauthenticated_open_access
    ⟨⟨"/data", [("u", ⟨none, none, none, none, none⟩)],
      ⟨false, false, false, false⟩⟩⟩ none "/x" "" 0 false
    (Or.inl rfl)).2.2 (by decide) (by decide)).2.2.1

/-! ## Claim C2: authenticated user with no policy entry -/

/-- C2 counterexample: for an authenticated user absent from the user
table, the permission check does not evaluate to allowed — the Go code
dereferences the nil policy pointer (`userInfo.Read`), so the check panics
(`none`) and `Stat` neither proceeds nor denies; it panics. -/
theorem C2_counterexample :
    hasRead (some ⟨true, "bob"⟩)
        ⟨⟨"/data", [("alice", ⟨none, none, none, none, none⟩)],
          ⟨false, false, false, false⟩⟩⟩ ≠ some true
    ∧ Dir.Stat ⟨⟨"/data", [("alice", ⟨none, none, none, none, none⟩)],
          ⟨false, false, false, false⟩⟩⟩ (some ⟨true, "bob"⟩) "/x"
        = Outcome.nilPanic := by
  decide

/-- C2 amended: for an authenticated request whose username has no entry in
the user-policy table, every permission check dereferences the nil policy
pointer — a runtime panic, not a default-allow — so each of the five
operations that reaches its permission gate panics instead of proceeding. -/
theorem C2_missing_user_panics (d : Dir) (a : AuthInfo) (name : String)
    (flag : Nat) (isdir : Bool)
    (hauth : a.authenticated = true)
    (hmiss : d.config.users.lookup a.username = none) :
    hasRead (some a) d = none
    ∧ hasWrite (some a) d = none
    ∧ hasDelete (some a) d = none
    ∧ hasList (some a) d = none
    ∧ (Dir.resolve d (some a) name ≠ "" →
      Dir.Mkdir d (some a) name = Outcome.nilPanic
      ∧ Dir.OpenFile d (some a) name flag isdir = Outcome.nilPanic
      ∧ Dir.Stat d (some a) name = Outcome.nilPanic
      ∧ (Dir.resolve d (some a) name ≠ pathClean d.config.dir →
          Dir.RemoveAll d (some a) name = Outcome.nilPanic)
      ∧ Dir.Rename d (some a) name name = Outcome.nilPanic) := by
  have hR : hasRead (some a) d = none := by simp [hasRead, hauth, hmiss]
  have hW : hasWrite (some a) d = none := by simp [hasWrite, hauth, hmiss]
  have hD : hasDelete (some a) d = none := by simp [hasDelete, hauth, hmiss]
  have hL : hasList (some a) d = none := by simp [hasList, hauth, hmiss]
  refine ⟨hR, hW, hD, hL, ?_⟩
  intro hr
  refine ⟨by simp [Dir.Mkdir, hr, hW], ?_, by simp [Dir.Stat, hr, hL], ?_, ?_⟩
  · by_cases h4 : flag % 4 = 0 <;>
      by_cases h42 : flag % 4 = 2 <;>
      cases isdir <;>
      simp [Dir.OpenFile, hr, hW, hR, hL, h4, h42]
  · intro hroot
    simp [Dir.RemoveAll, hr, hroot, hD]
  · simp [Dir.Rename, hr, hW]

/-- Witness for the amended C2 at a concrete configuration. -/
theorem C2_missing_user_panics_witness :
    Dir.Mkdir ⟨⟨"/data", [("alice", ⟨none, none, none, none, none⟩)],
        ⟨false, false, false, false⟩⟩⟩ (some ⟨true, "bob"⟩) "/x"
      = Outcome.nilPanic :=
  ((C2_missing_user_panics
    ⟨⟨"/data", [("alice", ⟨none, none, none, none, none⟩)],
      ⟨false, false, false, false⟩⟩⟩ ⟨true, "bob"⟩ "/x" 0 false
    rfl (by decide)).2.2.2.2 (by decide)).1

/-! ## Claim C3: RemoveAll and Rename on the root -/

/-- C3 counterexample: for a user whose policy denies write, `Rename` on
the virtual root returns PermissionDenied, not InvalidOperation — the
write-permission check (lines 161–163) runs before the root check (lines
165–168), so the InvalidOperation error is not returned "regardless of
whether the write permission is granted or denied". -/
theorem C3_counterexample :
    Dir.resolve ⟨⟨"/data", [("u", ⟨none, none, some false, none, none⟩)],
        ⟨false, false, false, false⟩⟩⟩ (some ⟨true, "u"⟩) "/"
      = pathClean "/data"
    ∧ Dir.Rename ⟨⟨"/data", [("u", ⟨none, none, some false, none, none⟩)],
        ⟨false, false, false, false⟩⟩⟩ (some ⟨true, "u"⟩) "/" "/x"
      = Outcome.errPermission
    ∧ Outcome.errPermission ≠ Outcome.errInvalid := by
  decide

/-- C3 amended: `RemoveAll` on a path resolving to the configured root
fails with InvalidOperation regardless of permissions; `Rename` from or to
such a path fails with InvalidOperation provided the write-permission gate
passes (write denial yields PermissionDenied first, since the write check
precedes the root check). -/
theorem C3_root_operations_invalid (d : Dir) (ctx : Option AuthInfo)
    (name other : String)
    (h1 : Dir.resolve d ctx name ≠ "")
    (hroot : Dir.resolve d ctx name = pathClean d.config.dir) :
    Dir.RemoveAll d ctx name = Outcome.errInvalid
    ∧ (Dir.resolve d ctx other ≠ "" → hasWrite ctx d = some true →
      Dir.Rename d ctx name other = Outcome.errInvalid
      ∧ Dir.Rename d ctx other name = Outcome.errInvalid) := by
  constructor
  · simp [Dir.RemoveAll, h1, hroot, pathClean_ne_empty]
  · intro h2 hW
    constructor
    · simp [Dir.Rename, h1, h2, hW, hroot, pathClean_ne_empty]
    · simp [Dir.Rename, h1, h2, hW, hroot, pathClean_ne_empty]

/-- Witness for the amended C3: deleting or renaming `"/"` under root
`"/data"` in open-access mode is InvalidOperation. -/
theorem C3_root_operations_invalid_witness :
    Dir.RemoveAll ⟨⟨"/data", [], ⟨false, false, false, false⟩⟩⟩ none "/"
      = Outcome.errInvalid :=
  (C3_root_operations_invalid ⟨⟨"/data", [], ⟨false, false, false, false⟩⟩⟩
    none "/" "/x" (by decide) (by decide)).1

/-! ## Claim C6: explicit policy flags, unset defaults to allowed -/

/-- C6: for an authenticated user with a policy entry, each permission
check returns the policy's explicit flag, an unset flag defaulting to
allowed; consequently a user with `write = false` and all other flags unset
can read, list and delete (Stat, read-only OpenFile and non-root RemoveAll
proceed to the filesystem call) but Mkdir, OpenFile with a write-intent
flag, and Rename all return PermissionDenied. -/
theorem C6_policy_flags (d : Dir) (a : AuthInfo) (u : UserInfo)
    (name other : String) (flag : Nat) (isdir : Bool)
    (hauth : a.authenticated = true)
    (hu : d.config.users.lookup a.username = some u) :
    (hasRead (some a) d = some (u.read.getD true)
      ∧ hasWrite (some a) d = some (u.write.getD true)
      ∧ hasDelete (some a) d = some (u.delete.getD true)
      ∧ hasList (some a) d = some (u.list.getD true))
    ∧ (u.read = none → u.delete = none → u.list = none → u.write = some false →
      Dir.resolve d (some a) name ≠ "" →
      Dir.Mkdir d (some a) name = Outcome.errPermission
      ∧ (flag % 4 ≠ 0 →
          Dir.OpenFile d (some a) name flag isdir = Outcome.errPermission)
      ∧ (flag % 4 = 0 →
          Dir.OpenFile d (some a) name flag isdir
            = Outcome.fsCall [Dir.resolve d (some a) name])
      ∧ Dir.Stat d (some a) name = Outcome.fsCall [Dir.resolve d (some a) name]
      ∧ (Dir.resolve d (some a) name ≠ pathClean d.config.dir →
          Dir.RemoveAll d (some a) name
            = Outcome.fsCall [Dir.resolve d (some a) name])
      ∧ (Dir.resolve d (some a) other ≠ "" →
          Dir.Rename d (some a) name other = Outcome.errPermission)) := by
  have hR : hasRead (some a) d = some (u.read.getD true) := by
    cases h : u.read <;> simp [hasRead, hauth, hu, h]
  have hW : hasWrite (some a) d = some (u.write.getD true) := by
    cases h : u.write <;> simp [hasWrite, hauth, hu, h]
  have hD : hasDelete (some a) d = some (u.delete.getD true) := by
    cases h : u.delete <;> simp [hasDelete, hauth, hu, h]
  have hL : hasList (some a) d = some (u.list.getD true) := by
    cases h : u.list <;> simp [hasList, hauth, hu, h]
  refine ⟨⟨hR, hW, hD, hL⟩, ?_⟩
  intro hur hud hul huw hr
  rw [hur] at hR
  rw [hud] at hD
  rw [hul] at hL
  rw [huw] at hW
  simp only [Option.getD] at hR hW hD hL
  refine ⟨by simp [Dir.Mkdir, hr, hW], ?_, ?_,
    by simp [Dir.Stat, hr, hL], ?_, ?_⟩
  · intro h4
    simp [Dir.OpenFile, hr, hW, h4]
  · intro h4
    cases isdir <;> simp [Dir.OpenFile, hr, hR, hL, h4]
  · intro hroot
    simp [Dir.RemoveAll, hr, hroot, hD]
  · intro h2
    simp [Dir.Rename, hr, h2, hW]

/-- Witness for C6: the write-denied user is refused `Mkdir` but allowed
`Stat`. -/
theorem C6_policy_flags_witness :
    Dir.Mkdir ⟨⟨"/data", [("alice", ⟨some "alice-home", none, some false, none, none⟩)],
        ⟨false, false, false, false⟩⟩⟩ (some ⟨true, "alice"⟩) "/new"
      = Outcome.errPermission :=
  ((C6_policy_flags
    ⟨⟨"/data", [("alice", ⟨some "alice-home", none, some false, none, none⟩)],
      ⟨false, false, false, false⟩⟩⟩ ⟨true, "alice"⟩
    ⟨some "alice-home", none, some false, none, none⟩ "/new" "" 0 false
    rfl (by decide)).2 rfl rfl rfl rfl (by decide)).1

/-! ## Claim C7: the OpenFile permission gate -/

/-- C7: with the access intent taken from the low two bits of the flag
word, a write intent requires the write permission; a read-only or
read-write intent requires the list permission when the target stats as a
directory and the read permission when it does not; an intent failing its
required permission makes `OpenFile` return PermissionDenied before the
underlying open. -/
theorem C7_openfile_gate (d : Dir) (ctx : Option AuthInfo) (name : String)
    (flag : Nat) (isdir : Bool)
    (hr : Dir.resolve d ctx name ≠ "") :
    (flag % 4 ≠ 0 → hasWrite ctx d = some false →
      Dir.OpenFile d ctx name flag isdir = Outcome.errPermission)
    ∧ (flag % 4 = 0 ∨ flag % 4 = 2 → isdir = true → hasList ctx d = some false →
      (flag % 4 ≠ 0 → hasWrite ctx d = some true) →
      Dir.OpenFile d ctx name flag isdir = Outcome.errPermission)
    ∧ (flag % 4 = 0 ∨ flag % 4 = 2 → isdir = false → hasRead ctx d = some false →
      (flag % 4 ≠ 0 → hasWrite ctx d = some true) →
      Dir.OpenFile d ctx name flag isdir = Outcome.errPermission) := by
  refine ⟨?_, ?_, ?_⟩
  · intro h4 hW
    simp [Dir.OpenFile, hr, h4, hW]
  · intro h4 hd hL hWp
    subst hd
    rcases h4 with h4 | h4
    · simp [Dir.OpenFile, hr, h4, hL]
    · have hW := hWp (by simp [h4])
      simp [Dir.OpenFile, hr, h4, hW, hL]
  · intro h4 hd hR hWp
    subst hd
    rcases h4 with h4 | h4
    · simp [Dir.OpenFile, hr, h4, hR]
    · have hW := hWp (by simp [h4])
      simp [Dir.OpenFile, hr, h4, hW, hR]

/-- Witness for C7: a write-intent open without write permission is
denied. -/
theorem C7_openfile_gate_witness :
    Dir.OpenFile ⟨⟨"/data", [("u", ⟨none, none, some false, none, none⟩)],
        ⟨false, false, false, false⟩⟩⟩ (some ⟨true, "u"⟩) "/f" 1 false
      = Outcome.errPermission :=
  (C7_openfile_gate ⟨⟨"/data", [("u", ⟨none, none, some false, none, none⟩)],
      ⟨false, false, false, false⟩⟩⟩ (some ⟨true, "u"⟩) "/f" 1 false
    (by decide)).1 (by decide) (by decide)

/-! ## Claim C9: the root is never passed to the underlying delete/rename -/

/-- C9: whenever `RemoveAll` or `Rename` reaches the underlying filesystem
call, the (cleaned) configured root directory is not among the path
arguments — the root itself can never be deleted or renamed through the
adapter, for any context, permissions and inputs. -/
theorem C9_root_never_target (d : Dir) (ctx : Option AuthInfo)
    (name other : String) (args : List String) :
    (Dir.RemoveAll d ctx name = Outcome.fsCall args →
      pathClean d.config.dir ∉ args)
    ∧ (Dir.Rename d ctx name other = Outcome.fsCall args →
      pathClean d.config.dir ∉ args) := by
  constructor
  · intro h hmem
    by_cases hr : d.resolve ctx name = ""
    · simp [Dir.RemoveAll, hr] at h
    · by_cases hroot : d.resolve ctx name = pathClean d.config.dir
      · simp [Dir.RemoveAll, hr, hroot, pathClean_ne_empty] at h
      · rcases hD : hasDelete ctx d with _ | b
        · simp [Dir.RemoveAll, hr, hroot, hD] at h
        · cases b
          · simp [Dir.RemoveAll, hr, hroot, hD] at h
          · simp [Dir.RemoveAll, hr, hroot, hD] at h
            rw [← h] at hmem
            simp at hmem
            exact hroot hmem.symm
  · intro h hmem
    by_cases hro : d.resolve ctx name = ""
    · simp [Dir.Rename, hro] at h
    · by_cases hrn : d.resolve ctx other = ""
      · simp [Dir.Rename, hro, hrn] at h
      · rcases hW : hasWrite ctx d with _ | b
        · simp [Dir.Rename, hro, hrn, hW] at h
        · cases b
          · simp [Dir.Rename, hro, hrn, hW] at h
          · by_cases hroot : pathClean d.config.dir = d.resolve ctx name
              ∨ pathClean d.config.dir = d.resolve ctx other
            · simp [Dir.Rename, hro, hrn, hW, hroot] at h
            · simp [Dir.Rename, hro, hrn, hW, hroot] at h
              rw [← h] at hmem
              simp at hmem
              exact hroot hmem

/-- Witness for C9: a concrete `RemoveAll` that does reach the filesystem
call does not pass the root. -/
theorem C9_root_never_target_witness :
    pathClean "/data" ∉ ["/data/x"] :=
  (C9_root_never_target ⟨⟨"/data", [], ⟨false, false, false, false⟩⟩⟩
    none "/x" "" ["/data/x"]).1 (by decide)

/-! ## Claim C10: UserDir performs no permission checks -/

/-- C10: the `UserDir` adapter never returns PermissionDenied (and never
panics) for any context or input: whenever `resolve` returns a non-empty
path — and, for `RemoveAll` and `Rename`, the resolved path(s) differ from
the cleaned base — the operation invokes the underlying filesystem call
directly, for authenticated and unauthenticated contexts alike; an
authenticated context is rooted at `BaseDir` joined with the raw
username. -/
theorem C10_userdir_ungated (u : UserDir) (ctx : Option AuthInfo)
    (name other : String) (flag : Nat) (a : AuthInfo) :
    (UserDir.Mkdir u ctx name ≠ Outcome.errPermission
      ∧ UserDir.OpenFile u ctx name flag ≠ Outcome.errPermission
      ∧ UserDir.RemoveAll u ctx name ≠ Outcome.errPermission
      ∧ UserDir.Rename u ctx name other ≠ Outcome.errPermission
      ∧ UserDir.Stat u ctx name ≠ Outcome.errPermission
      ∧ UserDir.Mkdir u ctx name ≠ Outcome.nilPanic
      ∧ UserDir.OpenFile u ctx name flag ≠ Outcome.nilPanic
      ∧ UserDir.RemoveAll u ctx name ≠ Outcome.nilPanic
      ∧ UserDir.Rename u ctx name other ≠ Outcome.nilPanic
      ∧ UserDir.Stat u ctx name ≠ Outcome.nilPanic)
    ∧ (UserDir.resolve u ctx name ≠ "" →
      UserDir.Mkdir u ctx name = Outcome.fsCall [UserDir.resolve u ctx name]
      ∧ UserDir.OpenFile u ctx name flag
          = Outcome.fsCall [UserDir.resolve u ctx name]
      ∧ UserDir.Stat u ctx name = Outcome.fsCall [UserDir.resolve u ctx name]
      ∧ (UserDir.resolve u ctx name ≠ pathClean u.baseDir →
          UserDir.RemoveAll u ctx name
            = Outcome.fsCall [UserDir.resolve u ctx name])
      ∧ (UserDir.resolve u ctx other ≠ "" →
          UserDir.resolve u ctx name ≠ pathClean u.baseDir →
          UserDir.resolve u ctx other ≠ pathClean u.baseDir →
          UserDir.Rename u ctx name other
            = Outcome.fsCall [UserDir.resolve u ctx name,
                UserDir.resolve u ctx other]))
    ∧ (a.authenticated = true → resolveGuard name = false →
      UserDir.resolve u (some a) name
        = filepathJoin [if u.baseDir = "" then "." else u.baseDir, a.username,
            filepathFromSlash (pathClean ("/" ++ name))]) := by
  have hmk : UserDir.Mkdir u ctx name = Outcome.errNotExist
      ∨ UserDir.Mkdir u ctx name = Outcome.fsCall [u.resolve ctx name] := by
    by_cases hr : u.resolve ctx name = ""
    · exact Or.inl (by simp [UserDir.Mkdir, hr])
    · exact Or.inr (by simp [UserDir.Mkdir, hr])
  have hof : UserDir.OpenFile u ctx name flag = Outcome.errNotExist
      ∨ UserDir.OpenFile u ctx name flag = Outcome.fsCall [u.resolve ctx name] := by
    by_cases hr : u.resolve ctx name = ""
    · exact Or.inl (by simp [UserDir.OpenFile, hr])
    · exact Or.inr (by simp [UserDir.OpenFile, hr])
  have hst : UserDir.Stat u ctx name = Outcome.errNotExist
      ∨ UserDir.Stat u ctx name = Outcome.fsCall [u.resolve ctx name] := by
    by_cases hr : u.resolve ctx name = ""
    · exact Or.inl (by simp [UserDir.Stat, hr])
    · exact Or.inr (by simp [UserDir.Stat, hr])
  have hrm : UserDir.RemoveAll u ctx name = Outcome.errNotExist
      ∨ UserDir.RemoveAll u ctx name = Outcome.errInvalid
      ∨ UserDir.RemoveAll u ctx name = Outcome.fsCall [u.resolve ctx name] := by
    by_cases hr : u.resolve ctx name = ""
    · exact Or.inl (by simp [UserDir.RemoveAll, hr])
    · by_cases hroot : u.resolve ctx name = pathClean u.baseDir
      · exact Or.inr (Or.inl (by simp [UserDir.RemoveAll, hr, hroot, pathClean_ne_empty]))
      · exact Or.inr (Or.inr (by simp [UserDir.RemoveAll, hr, hroot]))
  have hrnm : UserDir.Rename u ctx name other = Outcome.errNotExist
      ∨ UserDir.Rename u ctx name other = Outcome.errInvalid
      ∨ UserDir.Rename u ctx name other
          = Outcome.fsCall [u.resolve ctx name, u.resolve ctx other] := by
    by_cases hro : u.resolve ctx name = ""
    · exact Or.inl (by simp [UserDir.Rename, hro])
    · by_cases hrn : u.resolve ctx other = ""
      · exact Or.inl (by simp [UserDir.Rename, hro, hrn])
      · by_cases hroot : pathClean u.baseDir = u.resolve ctx name
          ∨ pathClean u.baseDir = u.resolve ctx other
        · exact Or.inr (Or.inl (by simp [UserDir.Rename, hro, hrn, hroot]))
        · exact Or.inr (Or.inr (by simp [UserDir.Rename, hro, hrn, hroot]))
  refine ⟨?_, ?_, ?_⟩
  · refine ⟨?_, ?_, ?_, ?_, ?_, ?_, ?_, ?_, ?_, ?_⟩
    · rcases hmk with h | h <;> simp [h]
    · rcases hof with h | h <;> simp [h]
    · rcases hrm with h | h | h <;> simp [h]
    · rcases hrnm with h | h | h <;> simp [h]
    · rcases hst with h | h <;> simp [h]
    · rcases hmk with h | h <;> simp [h]
    · rcases hof with h | h <;> simp [h]
    · rcases hrm with h | h | h <;> simp [h]
    · rcases hrnm with h | h | h <;> simp [h]
    · rcases hst with h | h <;> simp [h]
  · intro hr
    refine ⟨by simp [UserDir.Mkdir, hr], by simp [UserDir.OpenFile, hr],
      by simp [UserDir.Stat, hr], ?_, ?_⟩
    · intro hroot
      simp [UserDir.RemoveAll, hr, hroot]
    · intro hrn hroot1 hroot2
      have hroot : ¬(pathClean u.baseDir = u.resolve ctx name
          ∨ pathClean u.baseDir = u.resolve ctx other) := by
        rintro (h | h)
        · exact hroot1 h.symm
        · exact hroot2 h.symm
      simp [UserDir.Rename, hr, hrn, hroot]
  · intro hauth hg
    have hnul : ¬nulChar ∈ name.data := by
      simpa [resolveGuard, filepathSeparator] using hg
    simp [UserDir.resolve, hauth, hnul, filepathSeparator]

/-- Witness for C10: authenticated `bob` is rooted at `BaseDir/bob`, and
resolvable non-base `Mkdir` and `Rename` go straight to the filesystem
call. -/
theorem C10_userdir_ungated_witness :
    UserDir.Mkdir ⟨"/srv"⟩ (some ⟨true, "bob"⟩) "/x"
      = Outcome.fsCall [UserDir.resolve ⟨"/srv"⟩ (some ⟨true, "bob"⟩) "/x"]
    ∧ UserDir.Rename ⟨"/srv"⟩ (some ⟨true, "bob"⟩) "/x" "/y"
      = Outcome.fsCall [UserDir.resolve ⟨"/srv"⟩ (some ⟨true, "bob"⟩) "/x",
          UserDir.resolve ⟨"/srv"⟩ (some ⟨true, "bob"⟩) "/y"] :=
  ⟨((C10_userdir_ungated ⟨"/srv"⟩ (some ⟨true, "bob"⟩) "/x" "/y" 0
      ⟨true, "bob"⟩).2.1 (by decide)).1,
    ((C10_userdir_ungated ⟨"/srv"⟩ (some ⟨true, "bob"⟩) "/x" "/y" 0
      ⟨true, "bob"⟩).2.1 (by decide)).2.2.2.2 (by decide) (by decide) (by decide)⟩
